import Mathlib

/-!
Verification development for `canary.py` of the nixpkgs-upkeep repository.

The script runs `nix-build`, and on failure classifies the captured stderr:
environmental failures ("no space left on device", "Killed") exit 0; a single
line matching the failure regex yields a failure record (derivation hash,
package name-version, a 10-line excerpt); the excerpt is normalized by eight
ordered `re.sub` passes; two dedup tags are computed with Python's `hash`;
a GitHub search with a positive count exits 0 without reporting; otherwise an
issue is filed and the process exits with the build's return code.

We embed the relevant regex fragment semantics (leftmost position, greedy
backtracking as Python's `re` engine behaves on these patterns), the
substitution passes, the classification control flow and the tag strings.
`\d` and `\w` are modelled over ASCII, which covers every input of interest.
-/

namespace Canary

/-- Character class of Python `\d` (ASCII digits in the logs of interest). -/
def isDig (c : Char) : Bool := c.isDigit

/-- Character class of Python `\w` (ASCII letters, digits, underscore). -/
def isWordC (c : Char) : Bool := c.isAlphanum || c == '_'

/-- Any character other than a newline: what `.` matches without DOTALL. -/
def notNl (c : Char) : Bool := c != '\n'

/-- Character class `[,\d+]` of the Bazel progress pattern. -/
def cls6 (c : Char) : Bool := c == ',' || c.isDigit || c == '+'

/-- Semicolon test for the failure-line regex. -/
def isSemi (c : Char) : Bool := c == ';'

/-- One regex atom: a single-character class, or a greedy star of a class.
`lit c` is `cls (· == c)`, `\d+` is `cls isDig` followed by `rep isDig`,
and `.*` is `rep notNl`. -/
inductive Atom where
  | cls : (Char → Bool) → Atom
  | rep : (Char → Bool) → Atom

/-- Literal characters as atoms. -/
def lits (l : List Char) : List Atom := l.map fun c => Atom.cls (fun d => d == c)

/-- A class followed by its greedy star: the atoms of `p+`. -/
def plus (p : Char → Bool) : List Atom := [Atom.cls p, Atom.rep p]

/-- Length of the longest prefix whose characters satisfy `p`. -/
def npre (p : Char → Bool) : List Char → Nat
  | [] => 0
  | c :: s => if p c then npre p s + 1 else 0

/-- The list `[m, m-1, ..., lo]` (empty when `m < lo`): the order in which a
greedy star tries candidate lengths. -/
def descend (m lo : Nat) : List Nat := (List.range (m + 1 - lo)).map (fun i => m - i)

/-- Anchored match of a sequence of atoms against `s`; returns the number of
characters consumed by the match the backtracking engine selects (greedy
stars try longest first, backtracking right-to-left), or `none`. -/
def matchSeq : List Atom → List Char → Option Nat
  | [], _ => some 0
  | Atom.cls _ :: _, [] => none
  | Atom.cls p :: ps, c :: s =>
      if p c then (matchSeq ps s).map (fun n => n + 1) else none
  | Atom.rep p :: ps, s =>
      (descend (npre p s) 0).findSome? fun k =>
        (matchSeq ps (s.drop k)).map (fun n => n + k)

/-- Fuel-driven core of `re.sub(pattern, "", s)`: scan left to right, remove
each leftmost match, resume after it. The fuel is only a structural-recursion
device; `s.length` fuel always suffices. -/
def subAllF (ps : List Atom) : Nat → List Char → List Char
  | 0, s => s
  | _ + 1, [] => []
  | fuel + 1, c :: s =>
      match matchSeq ps (c :: s) with
      | none => c :: subAllF ps fuel s
      | some n => if n = 0 then c :: subAllF ps fuel s else subAllF ps fuel (s.drop (n - 1))

/-- `re.sub(pattern, "", s)` for an empty replacement. -/
def subAll (ps : List Atom) (s : List Char) : List Char := subAllF ps s.length s

/-- Pattern of `re.sub` pass 1: `\d+.\d+s` (the dot is an unescaped `.`). -/
def pat1 : List Atom := plus isDig ++ [Atom.cls notNl] ++ plus isDig ++ lits ['s']

/-- Pattern of pass 2: `\d+:\d+:\d+`. -/
def pat2 : List Atom := plus isDig ++ lits [':'] ++ plus isDig ++ lits [':'] ++ plus isDig

/-- Pattern of pass 3: `\d+ minutes`. -/
def pat3 : List Atom := plus isDig ++ lits " minutes".toList

/-- Pattern of pass 4: `\d+ seconds`. -/
def pat4 : List Atom := plus isDig ++ lits " seconds".toList

/-- Pattern of pass 5: `/nix/store/\w{32}`. -/
def pat5 : List Atom := lits "/nix/store/".toList ++ List.replicate 32 (Atom.cls isWordC)

/-- Head of pass 6 before its trailing `.*`: `> \[[,\d+]* / [,\d+]*\] `. -/
def pat6core : List Atom :=
  lits "> [".toList ++ [Atom.rep cls6] ++ lits " / ".toList ++ [Atom.rep cls6]
    ++ lits "] ".toList

/-- Pattern of pass 6: `> \[[,\d+]* / [,\d+]*\] .*`. -/
def pat6 : List Atom := pat6core ++ [Atom.rep notNl]

/-- Head of pass 7 before its trailing `.*`: `> INFO:`. -/
def pat7core : List Atom := lits "> INFO:".toList

/-- Pattern of pass 7: `> INFO:.*`. -/
def pat7 : List Atom := pat7core ++ [Atom.rep notNl]

/-- Pattern of pass 8: `\d+\.\d+\.\d+`. -/
def pat8 : List Atom := plus isDig ++ lits ['.'] ++ plus isDig ++ lits ['.'] ++ plus isDig

/-- The eight substitution passes of the source, in their order. -/
def allPats : List (List Atom) := [pat1, pat2, pat3, pat4, pat5, pat6, pat7, pat8]

/-- The Log Normalizer: the eight `re.sub` passes applied in source order to
the joined excerpt. -/
def normalizeLogs (s : List Char) : List Char :=
  subAll pat8 (subAll pat7 (subAll pat6 (subAll pat5 (subAll pat4
    (subAll pat3 (subAll pat2 (subAll pat1 s)))))))

/-- The single-quote character, written by code point to keep string literals
plain. -/
def sq : Char := Char.ofNat 39

/-- Literal head of `first_error_line_re` before the first capture group:
`error: builder for '/nix/store/`. -/
def felPre : List Char := "error: builder for ".toList ++ [sq] ++ "/nix/store/".toList

/-- Atoms of `first_error_line_re` after the second capture group:
`.drv' failed with exit code \d+;` (the leading `.` is unescaped). -/
def felTail : List Atom :=
  [Atom.cls notNl] ++ lits ("drv".toList ++ [sq] ++ " failed with exit code ".toList)
    ++ [Atom.cls isDig, Atom.rep isDig, Atom.cls isSemi]

/-- Strip an exact literal run from the front of `s`. -/
def stripLits : List Char → List Char → Option (List Char)
  | [], s => some s
  | _ :: _, [] => none
  | c :: cs, d :: s => if d = c then stripLits cs s else none

/-- `re.match(first_error_line_re, line)`: anchored at the line start, the
`\w{32}` group is fixed-width, `-` is literal, and `(.*)` is greedy, trying
the longest capture whose remainder matches the tail. Returns the two
captured groups (derivation hash, package name-version). -/
def matchFEL (line : List Char) : Option (List Char × List Char) :=
  match stripLits felPre line with
  | none => none
  | some s1 =>
      if (s1.take 32).length == 32 && (s1.take 32).all isWordC then
        match s1.drop 32 with
        | [] => none
        | c :: s3 =>
            if c = '-' then
              (descend (npre notNl s3) 0).findSome? fun k =>
                if (matchSeq felTail (s3.drop k)).isSome then some (s1.take 32, s3.take k)
                else none
            else none
      else none

/-- Structured record extracted when exactly one line matches the failure
regex: group 1, group 2, and `stderr_utf8[ix+2 : ix+12]`. -/
structure FailureRecord where
  buildIdentifier : List Char
  packageNameVersion : List Char
  excerptLines : List (List Char)

/-- Classification outcome of the script's early-exit control flow. -/
inductive ClassifyResult where
  | success : ClassifyResult
  | notReportable : ClassifyResult
  | unclassifiable : ClassifyResult
  | classified : FailureRecord → ClassifyResult

/-- Anchored-equality test of a needle against the front of a haystack. -/
def startsL : List Char → List Char → Bool
  | [], _ => true
  | _ :: _, [] => false
  | c :: cs, d :: ds => c == d && startsL cs ds

/-- Python's `needle in hay` substring test. -/
def containsSub (needle hay : List Char) : Bool :=
  (List.range (hay.length + 1)).any fun i => startsL needle (hay.drop i)

/-- Check of line 89: `"no space left on device" in "".join(stderr_utf8).lower()`
(ASCII lowering). -/
def hasNoSpace (stderr : List (List Char)) : Bool :=
  containsSub "no space left on device".toList (stderr.flatten.map Char.toLower)

/-- Check of line 94: `"Killed" in "".join(stderr_utf8)`. -/
def hasKilled (stderr : List (List Char)) : Bool :=
  containsSub "Killed".toList stderr.flatten

/-- The enumerated failure-line matches: `first_error_line_` of lines 101-105. -/
def errorMatches (stderr : List (List Char)) : List (Nat × List Char × List Char) :=
  stderr.enum.filterMap fun p => (matchFEL p.2).map fun m => (p.1, m)

/-- The classification control flow of lines 81-122: build success exits
early; the two environmental checks exit 0; anything but exactly one
matching failure line exits with the build's return code; otherwise the
failure record is produced. -/
def classify (rc : Int) (stderr : List (List Char)) : ClassifyResult :=
  if rc = 0 then ClassifyResult.success
  else if hasNoSpace stderr then ClassifyResult.notReportable
  else if hasKilled stderr then ClassifyResult.notReportable
  else
    match errorMatches stderr with
    | [(ix, hsh, pnv)] =>
        ClassifyResult.classified (FailureRecord.mk hsh pnv ((stderr.drop (ix + 2)).take 10))
    | _ => ClassifyResult.unclassifiable

/-- Observable outcome of one pipeline run: the process exit code and whether
the issue-creation step (`gh issue create`) was reached. -/
structure PipeOut where
  exitCode : Int
  reported : Bool

/-- The whole run after the build: classification, then the two dedup
queries (`find_existing_issues` on `logs_tag` then `drv_tag`, each exiting 0
on a positive match count), then issue creation and `sys.exit` with the
build's return code. `logsMatches`/`drvMatches` are the `total_count` values
the search interface would return for each tag. -/
def pipeline (rc : Int) (stderr : List (List Char)) (logsMatches drvMatches : Nat) : PipeOut :=
  match classify rc stderr with
  | ClassifyResult.success => PipeOut.mk 0 false
  | ClassifyResult.notReportable => PipeOut.mk 0 false
  | ClassifyResult.unclassifiable => PipeOut.mk rc false
  | ClassifyResult.classified _ =>
      if logsMatches > 0 then PipeOut.mk 0 false
      else if drvMatches > 0 then PipeOut.mk 0 false
      else PipeOut.mk rc true

/-- The string hashed for `logs_tag` (line 151):
`f"nixpkgs-upkeep {failing_pname_version} {last_10_log_lines_pure}"`. -/
def logsTagStr (pnv : List Char) (excerpt : List (List Char)) : List Char :=
  "nixpkgs-upkeep ".toList ++ pnv ++ [' '] ++ normalizeLogs excerpt.flatten

/-- `logs_tag`, with Python's per-process salted string hash abstracted as a
parameter `h`. -/
def logsTag (h : List Char → Int) (pnv : List Char) (excerpt : List (List Char)) : Int :=
  h (logsTagStr pnv excerpt)

/-- The string hashed for `drv_tag` (line 152): `f"nixpkgs-upkeep {failing_drv_hash}"`. -/
def drvTagStr (ident : List Char) : List Char := "nixpkgs-upkeep ".toList ++ ident

/-- `drv_tag`, with the salted string hash abstracted as a parameter `h`. -/
def drvTag (h : List Char → Int) (ident : List Char) : Int := h (drvTagStr ident)

/-- Python `pname_version.split("-")`. -/
def splitDash : List Char → List (List Char)
  | [] => [[]]
  | c :: t =>
      if c = '-' then [] :: splitDash t
      else
        match splitDash t with
        | [] => [[c]]
        | h :: r => (c :: h) :: r

/-- Python `"-".join(pieces)`. -/
def joinDash : List (List Char) → List Char
  | [] => []
  | [h] => h
  | h :: r => h ++ '-' :: joinDash r

/-- `split_pname_version` of lines 193-195: all but the last dash-separated
piece rejoined, and the last piece. -/
def split_pname_version (s : List Char) : List Char × List Char :=
  (joinDash (splitDash s).dropLast, ((splitDash s).getLast?).getD [])

/-- Concrete failure line of the end-to-end example of the spec. -/
def exErrLine : List Char :=
  felPre ++ "abcdefghijklmnopqrstuvwxyz123456-foo-1.2.3.drv".toList ++ [sq]
    ++ " failed with exit code 1;\n".toList

/-- Ten concrete content lines for the end-to-end example. -/
def exContent : List (List Char) :=
  ["alpha\n".toList, "bravo\n".toList, "charlie\n".toList, "delta\n".toList,
   "echo\n".toList, "foxtrot\n".toList, "golf\n".toList, "hotel\n".toList,
   "india\n".toList, "juliet\n".toList]

/-- The end-to-end example buffer: the failure line, the header line, and ten
content lines. -/
def exBuf : List (List Char) :=
  exErrLine :: "last 10 log lines:\n".toList :: exContent

/-- The derivation hash of the example failure line. -/
def hashC : List Char := "abcdefghijklmnopqrstuvwxyz123456".toList

/-- The package name-version of the example failure line. -/
def pnvC : List Char := "foo-1.2.3".toList

/-- The failure record of the example buffer. -/
def exRec : FailureRecord := FailureRecord.mk hashC pnvC exContent

/-- A pattern whose first atom is a single-character class: it can match
neither the empty string nor a string whose head it rejects. All eight
substitution patterns and the failure-line fragments have this shape. -/
def headCls : List Atom → Bool
  | Atom.cls _ :: _ => true
  | _ => false

/-- An atom that can never consume a newline character. -/
def atomBlocksNl : Atom → Bool
  | Atom.cls p => !p '\n'
  | Atom.rep p => !p '\n'

/-- No match of `ps` starts at any position of `s`. -/
def NoMatch (ps : List Atom) (s : List Char) : Prop :=
  ∀ i, matchSeq ps (s.drop i) = none

/-- Executable check of `NoMatch` over the positions of `s`. -/
def noMatchB (ps : List Atom) (s : List Char) : Bool :=
  (List.range (s.length + 1)).all fun i => (matchSeq ps (s.drop i)).isNone

/-- The six patterns matching the volatile content the normalizer exists to
strip: durations (passes 1-4), store paths (pass 5) and semantic versions
(pass 8). -/
def volPats : List (List Atom) := [pat1, pat2, pat3, pat4, pat5, pat8]

theorem findSome?_ex {α β : Type} {f : α → Option β} {l : List α} {b : β}
    (h : l.findSome? f = some b) : ∃ a, a ∈ l ∧ f a = some b := by
  induction l with
  | nil => simp [List.findSome?] at h
  | cons a t ih =>
      rw [List.findSome?_cons] at h
      cases hfa : f a with
      | some c =>
          rw [hfa] at h
          exact ⟨a, List.mem_cons_self a t, by rw [hfa]; exact h⟩
      | none =>
          rw [hfa] at h
          obtain ⟨x, hx, hfx⟩ := ih h
          exact ⟨x, List.mem_cons_of_mem a hx, hfx⟩

theorem findSome?_isSome_of_mem {α β : Type} {f : α → Option β} {l : List α} {a : α}
    (ha : a ∈ l) (h : (f a).isSome = true) : (l.findSome? f).isSome = true := by
  induction l with
  | nil => cases ha
  | cons x t ih =>
      rw [List.findSome?_cons]
      cases hfx : f x with
      | some c => simp
      | none =>
          rcases List.mem_cons.1 ha with rfl | hm
          · rw [hfx] at h; simp at h
          · exact ih hm

theorem findSome?_congr {α β : Type} {f g : α → Option β} {l : List α}
    (h : ∀ a ∈ l, f a = g a) : l.findSome? f = l.findSome? g := by
  induction l with
  | nil => rfl
  | cons x t ih =>
      rw [List.findSome?_cons, List.findSome?_cons, h x (List.mem_cons_self x t)]
      cases g x with
      | some c => rfl
      | none => exact ih fun a ha => h a (List.mem_cons_of_mem x ha)

theorem isSome_omap {α β : Type} (f : α → β) (o : Option α) :
    (o.map f).isSome = o.isSome := by
  cases o <;> rfl

theorem mem_descend {k m lo : Nat} : k ∈ descend m lo ↔ lo ≤ k ∧ k ≤ m := by
  simp only [descend, List.mem_map, List.mem_range]
  constructor
  · rintro ⟨i, hi, rfl⟩; omega
  · rintro ⟨h1, h2⟩; exact ⟨m - k, by omega, by omega⟩

theorem descend_zero_cons (m : Nat) :
    descend m 0 = m :: ((List.range m).map Nat.succ).map (fun i => m - i) := by
  rw [descend, Nat.sub_zero, List.range_succ_eq_map]
  simp

theorem npre_le (p : Char → Bool) : ∀ s : List Char, npre p s ≤ s.length := by
  intro s
  induction s with
  | nil => simp [npre]
  | cons c t ih =>
      simp only [npre, List.length_cons]
      split <;> omega

theorem npre_all {p : Char → Bool} : ∀ {s : List Char},
    (∀ c ∈ s, p c = true) → npre p s = s.length := by
  intro s
  induction s with
  | nil => intro _; rfl
  | cons c t ih =>
      intro h
      simp only [npre, h c (List.mem_cons_self c t), if_true, List.length_cons]
      rw [ih fun d hd => h d (List.mem_cons_of_mem c hd)]

theorem npre_append_ge (p : Char → Bool) : ∀ s t : List Char,
    npre p s ≤ npre p (s ++ t) := by
  intro s t
  induction s with
  | nil => simp [npre]
  | cons c u ih =>
      simp only [npre, List.cons_append, List.append_eq]
      split <;> omega

theorem npre_break {p : Char → Bool} (hp : p '\n' = false) :
    ∀ u w : List Char, npre p (u ++ '\n' :: w) = npre p u := by
  intro u w
  induction u with
  | nil => simp [npre, hp]
  | cons c t ih => simp only [npre, List.cons_append, List.append_eq]; rw [ih]

theorem matchSeq_nil_none {ps : List Atom} (h : headCls ps = true) :
    matchSeq ps [] = none := by
  cases ps with
  | nil => simp [headCls] at h
  | cons a t => cases a with
    | cls p => rfl
    | rep p => simp [headCls] at h

theorem matchSeq_pos {ps : List Atom} {s : List Char} {n : Nat}
    (h : headCls ps = true) (hm : matchSeq ps s = some n) : 1 ≤ n := by
  cases ps with
  | nil => simp [headCls] at h
  | cons a t =>
      cases a with
      | cls p =>
          cases s with
          | nil => simp [matchSeq] at hm
          | cons c u =>
              simp only [matchSeq] at hm
              by_cases hp : p c
              · rw [if_pos hp] at hm
                obtain ⟨m, _, rfl⟩ := Option.map_eq_some'.1 hm
                omega
              · rw [if_neg hp] at hm; cases hm
      | rep p => simp [headCls] at h

theorem matchSeq_le {ps : List Atom} : ∀ {s : List Char} {n : Nat},
    matchSeq ps s = some n → n ≤ s.length := by
  induction ps with
  | nil => intro s n hm; simp only [matchSeq, Option.some.injEq] at hm; omega
  | cons a t ih =>
      intro s n hm
      cases a with
      | cls p =>
          cases s with
          | nil => simp [matchSeq] at hm
          | cons c u =>
              simp only [matchSeq] at hm
              by_cases hp : p c
              · rw [if_pos hp] at hm
                obtain ⟨m, hmm, rfl⟩ := Option.map_eq_some'.1 hm
                have := ih hmm
                simp only [List.length_cons]
                omega
              · rw [if_neg hp] at hm; cases hm
      | rep p =>
          simp only [matchSeq] at hm
          obtain ⟨k, hk, hfk⟩ := findSome?_ex hm
          obtain ⟨m, hmm, rfl⟩ := Option.map_eq_some'.1 hfk
          have h1 := ih hmm
          have h2 : k ≤ npre p s := (mem_descend.1 hk).2
          have h3 := npre_le p s
          simp only [List.length_drop] at h1
          omega

theorem matchSeq_break {ps : List Atom} (hb : ps.all atomBlocksNl = true) :
    ∀ (u w : List Char), matchSeq ps (u ++ '\n' :: w) = matchSeq ps u := by
  induction ps with
  | nil => intro u w; rfl
  | cons a t ih =>
      have hba : atomBlocksNl a = true := (List.all_eq_true.1 hb) a (List.mem_cons_self a t)
      have hbt : t.all atomBlocksNl = true :=
        List.all_eq_true.2 fun x hx => (List.all_eq_true.1 hb) x (List.mem_cons_of_mem a hx)
      intro u w
      cases a with
      | cls p =>
          have hp : p '\n' = false := by
            simp only [atomBlocksNl, Bool.not_eq_true'] at hba; exact hba
          cases u with
          | nil => simp [matchSeq, hp]
          | cons c v => simp only [matchSeq, List.cons_append, List.append_eq]; rw [ih hbt v w]
      | rep p =>
          have hp : p '\n' = false := by
            simp only [atomBlocksNl, Bool.not_eq_true'] at hba; exact hba
          simp only [matchSeq]
          rw [npre_break hp u w]
          apply findSome?_congr
          intro k hk
          have h1 : k ≤ npre p u := (mem_descend.1 hk).2
          have h2 : k ≤ u.length := le_trans h1 (npre_le p u)
          rw [List.drop_append_of_le_length h2, ih hbt (u.drop k) w]

theorem matchSeq_extend {ps : List Atom} : ∀ {s : List Char} (t : List Char) {n : Nat},
    matchSeq ps s = some n → (matchSeq ps (s ++ t)).isSome = true := by
  induction ps with
  | nil => intro s t n _; simp [matchSeq]
  | cons a r ih =>
      intro s t n hm
      cases a with
      | cls p =>
          cases s with
          | nil => simp [matchSeq] at hm
          | cons c u =>
              simp only [matchSeq] at hm
              by_cases hp : p c
              · rw [if_pos hp] at hm
                obtain ⟨m, hmm, rfl⟩ := Option.map_eq_some'.1 hm
                have := ih t hmm
                simp only [List.cons_append, List.append_eq, matchSeq, if_pos hp]
                rw [isSome_omap]
                exact this
              · rw [if_neg hp] at hm; cases hm
      | rep p =>
          simp only [matchSeq] at hm ⊢
          obtain ⟨k, hk, hfk⟩ := findSome?_ex hm
          obtain ⟨m, hmm, rfl⟩ := Option.map_eq_some'.1 hfk
          have hk1 : k ≤ npre p s := (mem_descend.1 hk).2
          have hk2 : k ≤ s.length := le_trans hk1 (npre_le p s)
          have hmem : k ∈ descend (npre p (s ++ t)) 0 :=
            mem_descend.2 ⟨Nat.zero_le k, le_trans hk1 (npre_append_ge p s t)⟩
          apply findSome?_isSome_of_mem hmem
          rw [List.drop_append_of_le_length hk2, isSome_omap]
          exact ih t hmm

theorem matchSeq_full : ∀ (qs : List Atom) (u : List Char) (n : Nat),
    (∀ c ∈ u, notNl c = true) → matchSeq (qs ++ [Atom.rep notNl]) u = some n →
    n = u.length := by
  intro qs
  induction qs with
  | nil =>
      intro u n hnl hm
      simp only [List.nil_append, matchSeq] at hm
      rw [npre_all hnl, descend_zero_cons, List.findSome?_cons] at hm
      simp only [List.drop_length, matchSeq, Option.map_some'] at hm
      simp at hm
      omega
  | cons a t ih =>
      intro u n hnl hm
      cases a with
      | cls p =>
          cases u with
          | nil => simp [matchSeq] at hm
          | cons c v =>
              simp only [List.cons_append, matchSeq] at hm
              by_cases hp : p c
              · rw [if_pos hp] at hm
                obtain ⟨m, hmm, rfl⟩ := Option.map_eq_some'.1 hm
                have := ih v m (fun d hd => hnl d (List.mem_cons_of_mem c hd)) hmm
                simp [this]
              · rw [if_neg hp] at hm; cases hm
      | rep p =>
          simp only [List.cons_append, matchSeq] at hm
          obtain ⟨k, hk, hfk⟩ := findSome?_ex hm
          obtain ⟨m, hmm, rfl⟩ := Option.map_eq_some'.1 hfk
          have hk1 : k ≤ npre p u := (mem_descend.1 hk).2
          have hk2 : k ≤ u.length := le_trans hk1 (npre_le p u)
          have := ih (u.drop k) m
            (fun d hd => hnl d (List.mem_of_mem_drop hd)) hmm
          simp only [List.length_drop] at this
          omega

theorem subAllF_ge (ps : List Atom) : ∀ (f g : Nat) (s : List Char),
    s.length ≤ f → s.length ≤ g → subAllF ps f s = subAllF ps g s := by
  intro f
  induction f with
  | zero =>
      intro g s hf _
      have hs : s = [] := List.eq_nil_of_length_eq_zero (Nat.le_zero.1 hf)
      subst hs
      cases g <;> rfl
  | succ f ih =>
      intro g s hf hg
      cases s with
      | nil => cases g <;> rfl
      | cons c s =>
          cases g with
          | zero => simp at hg
          | succ g =>
              simp only [List.length_cons] at hf hg
              cases hm : matchSeq ps (c :: s) with
              | none =>
                  simp only [subAllF, hm]
                  rw [ih g s (by omega) (by omega)]
              | some n =>
                  by_cases h0 : n = 0
                  · subst h0
                    simp only [subAllF, hm, if_pos rfl, if_true]
                    rw [ih g s (by omega) (by omega)]
                  · simp only [subAllF, hm, if_neg h0]
                    have hd : (s.drop (n - 1)).length ≤ s.length := by
                      simp [List.length_drop]
                    exact ih g (s.drop (n - 1)) (by omega) (by omega)

theorem subAll_cons_none {ps : List Atom} {c : Char} {s : List Char}
    (hm : matchSeq ps (c :: s) = none) : subAll ps (c :: s) = c :: subAll ps s := by
  show subAllF ps (s.length + 1) (c :: s) = c :: subAllF ps s.length s
  simp only [subAllF, hm]

theorem subAll_cons_some {ps : List Atom} {c : Char} {s : List Char} {n : Nat}
    (hm : matchSeq ps (c :: s) = some n) (h0 : n ≠ 0) :
    subAll ps (c :: s) = subAll ps (s.drop (n - 1)) := by
  show subAllF ps (s.length + 1) (c :: s) = subAllF ps (s.drop (n - 1)).length (s.drop (n - 1))
  simp only [subAllF, hm, if_neg h0]
  exact subAllF_ge ps s.length (s.drop (n - 1)).length (s.drop (n - 1))
    (by simp [List.length_drop]) le_rfl

theorem noMatch_nil {ps : List Atom} (hc : headCls ps = true) : NoMatch ps [] := by
  intro i
  rw [List.drop_nil]
  exact matchSeq_nil_none hc

theorem noMatch_cons {ps : List Atom} {c : Char} {s : List Char}
    (h : NoMatch ps (c :: s)) : NoMatch ps s := fun i => h (i + 1)

theorem noMatch_of_b {ps : List Atom} {s : List Char}
    (hc : headCls ps = true) (hb : noMatchB ps s = true) : NoMatch ps s := by
  intro i
  by_cases hi : i ≤ s.length
  · have := (List.all_eq_true.1 hb) i (List.mem_range.2 (by omega))
    exact Option.isNone_iff_eq_none.1 this
  · rw [List.drop_eq_nil_of_le (by omega)]
    exact matchSeq_nil_none hc

theorem subAll_id (ps : List Atom) : ∀ s : List Char, NoMatch ps s → subAll ps s = s := by
  intro s
  induction s with
  | nil => intro _; rfl
  | cons c t ih =>
      intro h
      have h0 : matchSeq ps (c :: t) = none := by
        have := h 0
        rwa [List.drop_zero] at this
      rw [subAll_cons_none h0, ih (noMatch_cons h)]

/-- Prefix relation on character lists. -/
def isPre (t s : List Char) : Prop := ∃ r, t ++ r = s

theorem isPre_mem {t s : List Char} (h : isPre t s) {c : Char} (hc : c ∈ t) : c ∈ s := by
  obtain ⟨r, rfl⟩ := h
  exact List.mem_append_left r hc

theorem isPre_cons {t s : List Char} (c : Char) (h : isPre t s) :
    isPre (c :: t) (c :: s) := by
  obtain ⟨r, rfl⟩ := h
  exact ⟨r, rfl⟩

theorem isPre_of_isPre_isPre {a b c : List Char} (h1 : isPre a b) (h2 : isPre b c) :
    isPre a c := by
  obtain ⟨r, rfl⟩ := h1
  obtain ⟨q, rfl⟩ := h2
  exact ⟨r ++ q, by rw [List.append_assoc]⟩

theorem noMatch_pre {ps : List Atom} {s t : List Char}
    (hc : headCls ps = true) (h : NoMatch ps s) (hp : isPre t s) : NoMatch ps t := by
  intro i
  by_cases hi : i ≤ t.length
  · obtain ⟨r, rfl⟩ := hp
    cases hms : matchSeq ps (t.drop i) with
    | none => rfl
    | some n =>
        exfalso
        have hsome := matchSeq_extend r hms
        rw [← List.drop_append_of_le_length hi] at hsome
        rw [h i] at hsome
        simp at hsome
  · rw [List.drop_eq_nil_of_le (by omega)]
    exact matchSeq_nil_none hc

theorem subAll_pre (qs : List Atom) : ∀ u : List Char,
    (∀ c ∈ u, notNl c = true) →
    isPre (subAll (qs ++ [Atom.rep notNl]) u) u := by
  intro u
  induction u with
  | nil => intro _; exact ⟨[], rfl⟩
  | cons c t ih =>
      intro hnl
      cases hm : matchSeq (qs ++ [Atom.rep notNl]) (c :: t) with
      | none =>
          rw [subAll_cons_none hm]
          exact isPre_cons c (ih fun d hd => hnl d (List.mem_cons_of_mem c hd))
      | some n =>
          have hn := matchSeq_full qs (c :: t) n hnl hm
          simp only [List.length_cons] at hn
          rw [subAll_cons_some hm (by omega)]
          have : t.drop (n - 1) = [] := List.drop_eq_nil_of_le (by omega)
          rw [this]
          exact ⟨c :: t, rfl⟩

theorem subAll_self_noMatch (qs : List Atom)
    (hq : headCls (qs ++ [Atom.rep notNl]) = true) : ∀ u : List Char,
    (∀ c ∈ u, notNl c = true) →
    NoMatch (qs ++ [Atom.rep notNl]) (subAll (qs ++ [Atom.rep notNl]) u) := by
  intro u
  induction u with
  | nil => intro _; exact noMatch_nil hq
  | cons c t ih =>
      intro hnl
      cases hm : matchSeq (qs ++ [Atom.rep notNl]) (c :: t) with
      | none =>
          rw [subAll_cons_none hm]
          have hT := ih fun d hd => hnl d (List.mem_cons_of_mem c hd)
          intro i
          cases i with
          | zero =>
              rw [List.drop_zero]
              cases hms : matchSeq (qs ++ [Atom.rep notNl])
                  (c :: subAll (qs ++ [Atom.rep notNl]) t) with
              | none => rfl
              | some n =>
                  exfalso
                  have hpre : isPre (c :: subAll (qs ++ [Atom.rep notNl]) t) (c :: t) :=
                    isPre_cons c (subAll_pre qs t fun d hd => hnl d (List.mem_cons_of_mem c hd))
                  obtain ⟨r, hr⟩ := hpre
                  have hsome := matchSeq_extend r hms
                  rw [hr, hm] at hsome
                  simp at hsome
          | succ i => exact hT i
      | some n =>
          have hn := matchSeq_full qs (c :: t) n hnl hm
          simp only [List.length_cons] at hn
          rw [subAll_cons_some hm (by omega)]
          have : t.drop (n - 1) = [] := List.drop_eq_nil_of_le (by omega)
          rw [this]
          exact noMatch_nil hq

theorem matchSeq_nl_none {ps : List Atom} (hb : ps.all atomBlocksNl = true)
    (hc : headCls ps = true) (w : List Char) : matchSeq ps ('\n' :: w) = none := by
  cases ps with
  | nil => simp [headCls] at hc
  | cons a t =>
      cases a with
      | cls p =>
          have hba : atomBlocksNl (Atom.cls p) = true :=
            (List.all_eq_true.1 hb) _ (List.mem_cons_self _ t)
          have hp : p '\n' = false := by
            simp only [atomBlocksNl, Bool.not_eq_true'] at hba; exact hba
          simp [matchSeq, hp]
      | rep p => simp [headCls] at hc

theorem subAll_break (ps : List Atom) (hb : ps.all atomBlocksNl = true)
    (hc : headCls ps = true) : ∀ (N : Nat) (u w : List Char), u.length ≤ N →
    subAll ps (u ++ '\n' :: w) = subAll ps u ++ '\n' :: subAll ps w := by
  intro N
  induction N with
  | zero =>
      intro u w hu
      have : u = [] := List.eq_nil_of_length_eq_zero (Nat.le_zero.1 hu)
      subst this
      simp only [List.nil_append]
      rw [subAll_cons_none (matchSeq_nl_none hb hc w)]
      rfl
  | succ N ih =>
      intro u w hu
      cases u with
      | nil =>
          simp only [List.nil_append]
          rw [subAll_cons_none (matchSeq_nl_none hb hc w)]
          rfl
      | cons c t =>
          have hsplit : matchSeq ps (c :: t ++ '\n' :: w) = matchSeq ps (c :: t) :=
            matchSeq_break hb (c :: t) w
          simp only [List.length_cons] at hu
          cases hm : matchSeq ps (c :: t) with
          | none =>
              rw [hm] at hsplit
              have e1 : subAll ps ((c :: t) ++ '\n' :: w) = c :: subAll ps (t ++ '\n' :: w) := by
                rw [List.cons_append]
                exact subAll_cons_none hsplit
              rw [e1, ih t w (by omega), subAll_cons_none hm]
              rfl
          | some n =>
              rw [hm] at hsplit
              have hpos : 1 ≤ n := matchSeq_pos hc hm
              have hle : n ≤ t.length + 1 := by
                have := matchSeq_le hm
                simpa using this
              have e1 : subAll ps ((c :: t) ++ '\n' :: w)
                  = subAll ps ((t ++ '\n' :: w).drop (n - 1)) := by
                rw [List.cons_append]
                exact subAll_cons_some hsplit (by omega)
              have e2 : (t ++ '\n' :: w).drop (n - 1) = t.drop (n - 1) ++ '\n' :: w :=
                List.drop_append_of_le_length (by omega)
              rw [e1, e2, ih (t.drop (n - 1)) w (by simp [List.length_drop]; omega),
                subAll_cons_some hm (by omega)]

theorem noMatch_break (ps : List Atom) (hb : ps.all atomBlocksNl = true)
    (hc : headCls ps = true) (u w : List Char) :
    NoMatch ps (u ++ '\n' :: w) ↔ NoMatch ps u ∧ NoMatch ps w := by
  constructor
  · intro h
    constructor
    · intro i
      by_cases hi : i ≤ u.length
      · have := h i
        rw [List.drop_append_of_le_length hi, matchSeq_break hb (u.drop i) w] at this
        exact this
      · rw [List.drop_eq_nil_of_le (by omega)]
        exact matchSeq_nil_none hc
    · intro i
      have := h (u.length + (i + 1))
      rwa [List.drop_append, List.drop_succ_cons] at this
  · rintro ⟨h1, h2⟩ i
    by_cases hi : i ≤ u.length
    · rw [List.drop_append_of_le_length hi, matchSeq_break hb (u.drop i) w]
      exact h1 i
    · have hrw : i = u.length + ((i - u.length - 1) + 1) := by omega
      rw [hrw, List.drop_append, List.drop_succ_cons]
      exact h2 (i - u.length - 1)

theorem nlSplit : ∀ s : List Char,
    (∀ c ∈ s, notNl c = true) ∨
    ∃ u w, s = u ++ '\n' :: w ∧ (∀ c ∈ u, notNl c = true) := by
  intro s
  induction s with
  | nil => exact Or.inl (by intro c hc; cases hc)
  | cons c t ih =>
      by_cases hc : c = '\n'
      · subst hc
        exact Or.inr ⟨[], t, rfl, by intro d hd; cases hd⟩
      · have hcn : notNl c = true := by simp [notNl, hc]
        rcases ih with h | ⟨u, w, rfl, hu⟩
        · refine Or.inl ?_
          intro d hd
          rcases List.mem_cons.1 hd with rfl | hm
          · exact hcn
          · exact h d hm
        · refine Or.inr ⟨c :: u, w, rfl, ?_⟩
          intro d hd
          rcases List.mem_cons.1 hd with rfl | hm
          · exact hcn
          · exact hu d hm

theorem allPats_facts : ∀ P ∈ allPats, P.all atomBlocksNl = true ∧ headCls P = true := by
  decide

theorem volPats_facts : ∀ P ∈ volPats, headCls P = true := by
  decide

theorem mainBase (u : List Char) (hnl : ∀ c ∈ u, notNl c = true)
    (hv : ∀ P ∈ volPats, NoMatch P u) :
    ∀ P ∈ allPats, NoMatch P (subAll pat7 (subAll pat6 u)) := by
  have hp1 : isPre (subAll pat6 u) u := subAll_pre pat6core u hnl
  have h6y1 : NoMatch pat6 (subAll pat6 u) := subAll_self_noMatch pat6core rfl u hnl
  have hy1nl : ∀ c ∈ subAll pat6 u, notNl c = true := fun c hc => hnl c (isPre_mem hp1 hc)
  have hp2 : isPre (subAll pat7 (subAll pat6 u)) (subAll pat6 u) :=
    subAll_pre pat7core (subAll pat6 u) hy1nl
  have h7y2 : NoMatch pat7 (subAll pat7 (subAll pat6 u)) :=
    subAll_self_noMatch pat7core rfl (subAll pat6 u) hy1nl
  have h6y2 : NoMatch pat6 (subAll pat7 (subAll pat6 u)) :=
    noMatch_pre rfl h6y1 hp2
  have hvol : ∀ P ∈ volPats, NoMatch P (subAll pat7 (subAll pat6 u)) := by
    intro P hP
    exact noMatch_pre (volPats_facts P hP)
      (noMatch_pre (volPats_facts P hP) (hv P hP) hp1) hp2
  intro P hP
  simp only [allPats, List.mem_cons, List.not_mem_nil, or_false] at hP
  rcases hP with rfl | rfl | rfl | rfl | rfl | rfl | rfl | rfl
  · exact hvol pat1 (by simp [volPats])
  · exact hvol pat2 (by simp [volPats])
  · exact hvol pat3 (by simp [volPats])
  · exact hvol pat4 (by simp [volPats])
  · exact hvol pat5 (by simp [volPats])
  · exact h6y2
  · exact h7y2
  · exact hvol pat8 (by simp [volPats])

theorem mainAll : ∀ (N : Nat) (s : List Char), s.length ≤ N →
    (∀ P ∈ volPats, NoMatch P s) →
    ∀ P ∈ allPats, NoMatch P (subAll pat7 (subAll pat6 s)) := by
  intro N
  induction N with
  | zero =>
      intro s hs hv
      have : s = [] := List.eq_nil_of_length_eq_zero (Nat.le_zero.1 hs)
      subst this
      exact mainBase [] (by intro c hc; cases hc) hv
  | succ N ih =>
      intro s hs hv
      rcases nlSplit s with hnl | ⟨u, w, rfl, hu⟩
      · exact mainBase s hnl hv
      · have hvu : ∀ P ∈ volPats, NoMatch P u := by
          intro P hP
          have hf := allPats_facts P (by
            simp only [volPats, List.mem_cons, List.not_mem_nil, or_false] at hP
            rcases hP with rfl | rfl | rfl | rfl | rfl | rfl <;> simp [allPats])
          exact ((noMatch_break P hf.1 hf.2 u w).1 (hv P hP)).1
        have hvw : ∀ P ∈ volPats, NoMatch P w := by
          intro P hP
          have hf := allPats_facts P (by
            simp only [volPats, List.mem_cons, List.not_mem_nil, or_false] at hP
            rcases hP with rfl | rfl | rfl | rfl | rfl | rfl <;> simp [allPats])
          exact ((noMatch_break P hf.1 hf.2 u w).1 (hv P hP)).2
        have hmu := mainBase u hu hvu
        have hmw := ih w (by simp only [List.length_append, List.length_cons] at hs; omega) hvw
        have h6f : pat6.all atomBlocksNl = true := by decide
        have h7f : pat7.all atomBlocksNl = true := by decide
        rw [subAll_break pat6 h6f rfl u.length u w le_rfl,
          subAll_break pat7 h7f rfl (subAll pat6 u).length (subAll pat6 u) (subAll pat6 w) le_rfl]
        intro P hP
        have hf := allPats_facts P hP
        exact (noMatch_break P hf.1 hf.2 _ _).2 ⟨hmu P hP, hmw P hP⟩

theorem splitDash_ne_nil : ∀ s : List Char, splitDash s ≠ [] := by
  intro s
  cases s with
  | nil => simp [splitDash]
  | cons c t =>
      simp only [splitDash]
      by_cases hc : c = '-'
      · simp [hc]
      · rw [if_neg hc]
        cases splitDash t <;> simp

theorem joinDash_cons_cons (c : Char) (h : List Char) (r : List (List Char)) :
    joinDash ((c :: h) :: r) = c :: joinDash (h :: r) := by
  cases r with
  | nil => rfl
  | cons a t => rfl

theorem joinDash_splitDash : ∀ s : List Char, joinDash (splitDash s) = s := by
  intro s
  induction s with
  | nil => rfl
  | cons c t ih =>
      by_cases hc : c = '-'
      · subst hc
        have hred : splitDash ('-' :: t) = [] :: splitDash t := rfl
        rw [hred]
        cases hsp : splitDash t with
        | nil => exact absurd hsp (splitDash_ne_nil t)
        | cons a r =>
            have h1 : joinDash ([] :: a :: r) = '-' :: joinDash (a :: r) := rfl
            rw [h1, ← hsp, ih]
      · simp only [splitDash, if_neg hc]
        cases hsp : splitDash t with
        | nil => exact absurd hsp (splitDash_ne_nil t)
        | cons a r =>
            rw [joinDash_cons_cons, ← hsp, ih]

theorem mem_dash_iff : ∀ s : List Char, '-' ∈ s ↔ 2 ≤ (splitDash s).length := by
  intro s
  induction s with
  | nil => simp [splitDash]
  | cons c t ih =>
      by_cases hc : c = '-'
      · subst hc
        have hred : splitDash ('-' :: t) = [] :: splitDash t := rfl
        rw [hred, List.length_cons]
        have hpos : 0 < (splitDash t).length := List.length_pos.2 (splitDash_ne_nil t)
        constructor
        · intro _; omega
        · intro _; exact List.mem_cons_self _ t
      · simp only [splitDash, if_neg hc]
        cases hsp : splitDash t with
        | nil => exact absurd hsp (splitDash_ne_nil t)
        | cons a r =>
            rw [hsp] at ih
            simp only [List.length_cons] at ih
            constructor
            · intro hm
              rcases List.mem_cons.1 hm with h | h
              · exact absurd h.symm hc
              · simpa using ih.1 h
            · intro hl
              simp only [List.length_cons] at hl
              exact List.mem_cons_of_mem c (ih.2 (by omega))

theorem joinDash_append_last : ∀ (qs : List (List Char)) (l : List Char), qs ≠ [] →
    joinDash (qs ++ [l]) = joinDash qs ++ '-' :: l := by
  intro qs
  induction qs with
  | nil => intro l h; exact absurd rfl h
  | cons a t ih =>
      intro l _
      cases t with
      | nil => rfl
      | cons b r =>
          have h2 : joinDash ((b :: r) ++ [l]) = joinDash (b :: r) ++ '-' :: l :=
            ih l (by simp)
          calc joinDash ((a :: b :: r) ++ [l])
              = a ++ '-' :: joinDash ((b :: r) ++ [l]) := rfl
            _ = a ++ '-' :: (joinDash (b :: r) ++ '-' :: l) := by rw [h2]
            _ = (a ++ '-' :: joinDash (b :: r)) ++ '-' :: l := by simp [List.append_assoc]
            _ = joinDash (a :: b :: r) ++ '-' :: l := rfl

set_option maxRecDepth 16000

/-- Claim C1: the original claim expects exit code 0 after a successfully
filed new report; the code instead exits with the build's return code (line
316), so a classified, dedup-clear, successfully reported run with return
code 7 exits 7, not 0. -/
theorem c1_cex :
    classify 7 exBuf = ClassifyResult.classified exRec ∧
      pipeline 7 exBuf 0 0 = PipeOut.mk 7 true ∧ (7 : Int) ≠ 0 :=
  ⟨rfl, rfl, by decide⟩

/-- Claim C1 (amended): a classified run whose two dedup queries both report
zero matches reaches the Reporter and exits with the child's original return
code. -/
theorem c1_amended (rc : Int) (stderr : List (List Char)) (rec : FailureRecord)
    (hc : classify rc stderr = ClassifyResult.classified rec) :
    pipeline rc stderr 0 0 = PipeOut.mk rc true := by
  unfold pipeline
  rw [hc]
  rfl

theorem c1_amended_witness : pipeline 1 exBuf 0 0 = PipeOut.mk 1 true :=
  c1_amended 1 exBuf exRec rfl

/-- Claim C2: on a classified run, a positive match count for either tag
makes the pipeline exit 0 without invoking the Reporter. -/
theorem c2_dedup_gate (rc : Int) (stderr : List (List Char)) (lm dm : Nat)
    (rec : FailureRecord) (hc : classify rc stderr = ClassifyResult.classified rec)
    (hm : 0 < lm ∨ 0 < dm) :
    pipeline rc stderr lm dm = PipeOut.mk 0 false := by
  unfold pipeline
  rw [hc]
  rcases hm with h | h
  · rw [if_pos h]
  · by_cases hl : 0 < lm
    · rw [if_pos hl]
    · rw [if_neg hl, if_pos h]

theorem c2_witness : pipeline 1 exBuf 1 0 = PipeOut.mk 0 false :=
  c2_dedup_gate 1 exBuf 1 0 exRec rfl (Or.inl (by decide))

/-- Claim C3: with a non-zero return code, no environmental marker and zero
or at least two failure-line matches, classification is unclassifiable and
the pipeline exits with the child's original return code. -/
theorem c3_unclassifiable (rc : Int) (stderr : List (List Char)) (lm dm : Nat)
    (h0 : rc ≠ 0) (h1 : hasNoSpace stderr = false) (h2 : hasKilled stderr = false)
    (h3 : (errorMatches stderr).length = 0 ∨ 2 ≤ (errorMatches stderr).length) :
    classify rc stderr = ClassifyResult.unclassifiable ∧
      pipeline rc stderr lm dm = PipeOut.mk rc false := by
  have hcl : classify rc stderr = ClassifyResult.unclassifiable := by
    unfold classify
    rw [if_neg h0, h1, h2]
    simp only [Bool.false_eq_true, if_false]
    rcases hE : errorMatches stderr with _ | ⟨⟨ix, hsh, pnv⟩, _ | ⟨b, t⟩⟩
    · rfl
    · rw [hE] at h3; simp at h3
    · rfl
  refine ⟨hcl, ?_⟩
  unfold pipeline
  rw [hcl]

theorem c3_witness :
    classify 2 [] = ClassifyResult.unclassifiable ∧
      pipeline 2 [] 0 0 = PipeOut.mk 2 false :=
  c3_unclassifiable 2 [] 0 0 (by decide) rfl rfl (Or.inl rfl)

/-- Claim C4: an error buffer containing the disk-space phrase in any letter
case, or the literal kill marker, makes the pipeline exit 0 without a report,
whatever the child's exit code. -/
theorem c4_environmental (rc : Int) (stderr : List (List Char)) (lm dm : Nat)
    (h : hasNoSpace stderr = true ∨ hasKilled stderr = true) :
    pipeline rc stderr lm dm = PipeOut.mk 0 false := by
  have hcl : classify rc stderr = ClassifyResult.success ∨
      classify rc stderr = ClassifyResult.notReportable := by
    unfold classify
    by_cases h0 : rc = 0
    · exact Or.inl (by rw [if_pos h0])
    · refine Or.inr ?_
      rw [if_neg h0]
      rcases h with h | h
      · rw [h]
        rfl
      · by_cases hn : hasNoSpace stderr = true
        · rw [hn]
          rfl
        · have hn2 : hasNoSpace stderr = false := by
            cases hq : hasNoSpace stderr
            · rfl
            · exact absurd hq hn
          rw [hn2, h]
          rfl
  rcases hcl with hcl | hcl <;> (unfold pipeline; rw [hcl])

theorem c4_witness : pipeline 9 ["Killed\n".toList] 0 0 = PipeOut.mk 0 false :=
  c4_environmental 9 ["Killed\n".toList] 0 0 (Or.inr rfl)

/-- Claim C5: the end-to-end example: a buffer whose first line is the fixed
failure line followed by the header line and ten content lines classifies to
the package name-version `foo-1.2.3`, the 32-character store hash, and an
excerpt equal to the ten content lines. -/
theorem c5_end_to_end :
    classify 1 exBuf = ClassifyResult.classified
      (FailureRecord.mk "abcdefghijklmnopqrstuvwxyz123456".toList
        "foo-1.2.3".toList exContent) := rfl

/-- Claim C6: the original claim expects exactly ten excerpt lines even for
buffers ending early; a buffer consisting of the failure line alone is
classified with an empty excerpt. -/
theorem c6_cex : ∃ rec, classify 5 [exErrLine] = ClassifyResult.classified rec ∧
    rec.excerptLines.length ≠ 10 :=
  ⟨FailureRecord.mk hashC pnvC [], rfl, by decide⟩

/-- Claim C6 (amended): the excerpt is the window from two lines after the
matched line, truncated at the buffer end: always at most ten lines, and
exactly ten when the buffer extends at least twelve lines past the match. -/
theorem c6_amended (rc : Int) (stderr : List (List Char)) (ix : Nat) (hsh pnv : List Char)
    (h0 : rc ≠ 0) (h1 : hasNoSpace stderr = false) (h2 : hasKilled stderr = false)
    (hm : errorMatches stderr = [(ix, hsh, pnv)]) :
    classify rc stderr = ClassifyResult.classified
        (FailureRecord.mk hsh pnv ((stderr.drop (ix + 2)).take 10)) ∧
      ((stderr.drop (ix + 2)).take 10).length ≤ 10 ∧
      (ix + 12 ≤ stderr.length → ((stderr.drop (ix + 2)).take 10).length = 10) := by
  refine ⟨?_, ?_, ?_⟩
  · unfold classify
    rw [if_neg h0, h1, h2]
    simp only [Bool.false_eq_true, if_false]
    rw [hm]
  · simp [List.length_take]
  · intro hlen
    simp only [List.length_take, List.length_drop]
    omega

theorem c6_witness :
    classify 3 exBuf = ClassifyResult.classified
        (FailureRecord.mk hashC pnvC ((exBuf.drop (0 + 2)).take 10)) ∧
      ((exBuf.drop (0 + 2)).take 10).length ≤ 10 ∧
      (0 + 12 ≤ exBuf.length → ((exBuf.drop (0 + 2)).take 10).length = 10) :=
  c6_amended 3 exBuf 0 hashC pnvC (by decide) rfl rfl rfl

/-- Claim C7: the Log Normalizer is idempotent on excerpts already free of
raw durations (passes 1 to 4), store paths (pass 5) and semantic version
numbers (pass 8): normalize x equals normalize (normalize x). -/
theorem c7_normalizer_idem (x : List Char)
    (h1 : NoMatch pat1 x) (h2 : NoMatch pat2 x) (h3 : NoMatch pat3 x)
    (h4 : NoMatch pat4 x) (h5 : NoMatch pat5 x) (h8 : NoMatch pat8 x) :
    normalizeLogs x = normalizeLogs (normalizeLogs x) := by
  have hv : ∀ P ∈ volPats, NoMatch P x := by
    intro P hP
    simp only [volPats, List.mem_cons, List.not_mem_nil, or_false] at hP
    rcases hP with rfl | rfl | rfl | rfl | rfl | rfl <;> assumption
  have hall := mainAll x.length x le_rfl hv
  have e1 : subAll pat1 x = x := subAll_id pat1 x h1
  have e2 : subAll pat2 x = x := subAll_id pat2 x h2
  have e3 : subAll pat3 x = x := subAll_id pat3 x h3
  have e4 : subAll pat4 x = x := subAll_id pat4 x h4
  have e5 : subAll pat5 x = x := subAll_id pat5 x h5
  have h8y : NoMatch pat8 (subAll pat7 (subAll pat6 x)) := hall pat8 (by simp [allPats])
  have hnx : normalizeLogs x = subAll pat7 (subAll pat6 x) := by
    unfold normalizeLogs
    rw [e1, e2, e3, e4, e5, subAll_id pat8 _ h8y]
  have hny : normalizeLogs (subAll pat7 (subAll pat6 x)) = subAll pat7 (subAll pat6 x) := by
    unfold normalizeLogs
    rw [subAll_id pat1 _ (hall pat1 (by simp [allPats])),
      subAll_id pat2 _ (hall pat2 (by simp [allPats])),
      subAll_id pat3 _ (hall pat3 (by simp [allPats])),
      subAll_id pat4 _ (hall pat4 (by simp [allPats])),
      subAll_id pat5 _ (hall pat5 (by simp [allPats])),
      subAll_id pat6 _ (hall pat6 (by simp [allPats])),
      subAll_id pat7 _ (hall pat7 (by simp [allPats])),
      subAll_id pat8 _ h8y]
  rw [hnx, hny]

/-- Concrete excerpt for the C7 witness. -/
def xW : List Char := "build failed\nbad assertion\n".toList

theorem c7_witness : normalizeLogs xW = normalizeLogs (normalizeLogs xW) :=
  c7_normalizer_idem xW
    (noMatch_of_b rfl (by decide)) (noMatch_of_b rfl (by decide))
    (noMatch_of_b rfl (by decide)) (noMatch_of_b rfl (by decide))
    (noMatch_of_b rfl (by decide)) (noMatch_of_b rfl (by decide))

/-- A string wholly matched by one of the volatility patterns: a timing
string (passes 1 to 4), a store-path hash (pass 5), or a three-part semantic
version (pass 8). -/
def isVolatile (v : List Char) : Prop :=
  matchSeq pat1 v = some v.length ∨ matchSeq pat2 v = some v.length ∨
  matchSeq pat3 v = some v.length ∨ matchSeq pat4 v = some v.length ∨
  matchSeq pat5 v = some v.length ∨ matchSeq pat8 v = some v.length

/-- Two buffers that agree except on embedded volatile substrings. -/
inductive VolatileDiff : List Char → List Char → Prop where
  | nil : VolatileDiff [] []
  | same (c : Char) {t1 t2 : List Char} :
      VolatileDiff t1 t2 → VolatileDiff (c :: t1) (c :: t2)
  | hole {v1 v2 t1 t2 : List Char} : isVolatile v1 → isVolatile v2 →
      VolatileDiff t1 t2 → VolatileDiff (v1 ++ t1) (v2 ++ t2)

theorem volatileDiff_refl : ∀ t : List Char, VolatileDiff t t := by
  intro t
  induction t with
  | nil => exact VolatileDiff.nil
  | cons c r ih => exact VolatileDiff.same c ih

/-- A concrete stand-in for one run's salted string hash. -/
def lenHash : List Char → Int := fun s => (s.length : Int)

/-- First counterexample excerpt content for C8: a semantic version directly
followed by `.5s`. -/
def cexE1 : List Char := "1.2.3".toList ++ ".5s".toList

/-- Second counterexample excerpt content for C8: a different semantic
version followed by the same `.5s`. -/
def cexE2 : List Char := "1.22.33".toList ++ ".5s".toList

/-- Claim C8: the original claim fails: these two excerpts differ only in an
embedded three-part semantic version, yet their normalized forms differ
(`1.2.` versus `1.22.`), so the tag strings differ and a run's hash
separates them. -/
theorem c8_cex :
    VolatileDiff cexE1 cexE2 ∧
      logsTag lenHash pnvC [cexE1] ≠ logsTag lenHash pnvC [cexE2] := by
  constructor
  · exact VolatileDiff.hole
      (Or.inr (Or.inr (Or.inr (Or.inr (Or.inr (by decide))))))
      (Or.inr (Or.inr (Or.inr (Or.inr (Or.inr (by decide))))))
      (volatileDiff_refl ".5s".toList)
  · decide

/-- Claim C8 (amended): within one run, records with identical package
name-version whose excerpts have equal normalized forms, as is the case when
the differing volatile substrings are stripped whole, give identical
`logs_tag` values. -/
theorem c8_amended (h : List Char → Int) (pnv : List Char) (e1 e2 : List (List Char))
    (hn : normalizeLogs e1.flatten = normalizeLogs e2.flatten) :
    logsTag h pnv e1 = logsTag h pnv e2 := by
  unfold logsTag logsTagStr
  rw [hn]

theorem c8_witness :
    logsTag lenHash pnvC ["took 12.5s\n".toList] = logsTag lenHash pnvC ["took 7.2s\n".toList] :=
  c8_amended lenHash pnvC ["took 12.5s\n".toList] ["took 7.2s\n".toList] (by decide)

/-- Claim C9: `drv_tag` is `hash` of a string determined by the build
identifier alone, but Python's string hash is salted per process: the tag
depends on the run's hash function, so two runs with different salts give
different tags for the same identifier. -/
theorem c9_salt_dependence :
    ∃ h1 h2 : List Char → Int, drvTag h1 hashC ≠ drvTag h2 hashC :=
  ⟨fun _ => 0, fun _ => 1, by decide⟩

/-- Claim C10: the split takes the last dash-separated piece as the version
and rejoins the rest as the name: with a dash present the pair rejoins to
the original string, and with no dash the name is empty and the version is
the whole input. -/
theorem c10_split_round_trip (s : List Char) :
    ('-' ∈ s → (split_pname_version s).1 ++ '-' :: (split_pname_version s).2 = s) ∧
    ('-' ∉ s → (split_pname_version s).1 = [] ∧ (split_pname_version s).2 = s) := by
  constructor
  · intro hm
    have hlen := (mem_dash_iff s).1 hm
    have hne : splitDash s ≠ [] := splitDash_ne_nil s
    have hq : (splitDash s).dropLast ≠ [] := by
      intro h
      have := List.length_dropLast (splitDash s)
      rw [h] at this
      simp at this
      omega
    have hsplit : (splitDash s).dropLast ++ [(splitDash s).getLast hne] = splitDash s :=
      List.dropLast_append_getLast hne
    have hget : (splitDash s).getLast? = some ((splitDash s).getLast hne) :=
      List.getLast?_eq_getLast _ hne
    unfold split_pname_version
    rw [hget]
    have : joinDash ((splitDash s).dropLast ++ [(splitDash s).getLast hne])
        = joinDash (splitDash s).dropLast ++ '-' :: (splitDash s).getLast hne :=
      joinDash_append_last _ _ hq
    rw [hsplit] at this
    rw [Option.getD_some, ← this, joinDash_splitDash]
  · intro hm
    have hlen : ¬ 2 ≤ (splitDash s).length := fun h => hm ((mem_dash_iff s).2 h)
    have hpos : 0 < (splitDash s).length := List.length_pos.2 (splitDash_ne_nil s)
    have h1 : (splitDash s).length = 1 := by omega
    obtain ⟨a, ha⟩ := List.length_eq_one.1 h1
    have has : a = s := by
      have := joinDash_splitDash s
      rw [ha] at this
      exact this
    unfold split_pname_version
    rw [ha, has]
    constructor
    · rfl
    · rfl

theorem c10_witness :
    (split_pname_version pnvC).1 ++ '-' :: (split_pname_version pnvC).2 = pnvC :=
  (c10_split_round_trip pnvC).1 (by decide)

end Canary
